import Mathlib

/-!
Verification of the PII-redacting log formatter (`0x00-personal_data/filtered_logger.py`)
and the password helpers (`0x00-personal_data/encrypt_password.py`).

The redaction core is `RedactingFormatter.filter_datum`, which runs
`message = re.sub(field ++ "=[^;]*", field ++ "=" ++ redaction, message)`
once per field, left to right.  We embed that regex substitution as a direct
left-to-right scanner on character lists: at each position the scanner tries to
match the literal `field ++ "="`; on a match the (greedy) value is every
character up to the next `';'` or the end of the string, the span is replaced
by `field ++ "=" ++ redaction`, and scanning resumes right after the consumed
value, exactly as `re.sub` resumes after a match.  Field names and redaction
tokens are treated as literal text (the setting in which the program is used:
identifier-like field names and tokens such as `"***"`, free of regex
metacharacters and template escapes).

Strings are modelled through their character lists (`String.data`).
-/

/-- Constant `PII_FIELDS` from `filtered_logger.py`. -/
def PII_FIELDS : List String := ["name", "email", "phone", "ssn", "password"]

/-- The `RedactingFormatter` class state: the format string installed by
`super().__init__(self.FORMAT)` and the field list stored by `__init__`. -/
structure RedactingFormatter where
  fmt : String
  fields : List String

namespace RedactingFormatter

/-- Class constant `REDACTION = "***"`. -/
def REDACTION : String := "***"

/-- Class constant `FORMAT`. -/
def FORMAT : String := "[HOLBERTON] %(name)s %(levelname)s %(asctime)s: %(message)s"

/-- Class constant `SEPARATOR = "; "`. -/
def SEPARATOR : String := "; "

/-- Constructor `__init__(self, fields)`: calls `super().__init__(self.FORMAT)` and stores
`self.fields = fields`.  The body performs no validation and cannot raise, so
— modelling a possibly-raising Python constructor as `Except` — it always
returns `Except.ok`. -/
def init (fields : List String) : Except String RedactingFormatter :=
  Except.ok { fmt := FORMAT, fields := fields }

end RedactingFormatter

/-- One pass of `re.sub(fld ++ "=[^;]*", fld ++ "=" ++ red, ·)` on character
lists, written with explicit fuel so that the recursion is structural (the
fuel only ever pads the measure: `replFieldCh` below always supplies enough).
At each position: if the literal `fld ++ "="` matches, the greedy value
`[^;]*` is everything up to the next `';'` (or the end), the whole span is
replaced by `fld ++ "=" ++ red`, and scanning resumes after the value;
otherwise the scanner advances one character. -/
def replFieldChF (fld red : List Char) : Nat → List Char → List Char
  | _, [] => []
  | 0, s => s
  | fuel + 1, c :: cs =>
    if (fld ++ ['=']) <+: (c :: cs) then
      fld ++ '=' :: red ++
        replFieldChF fld red fuel
          (List.dropWhile (fun x => x != ';') (List.drop (fld.length + 1) (c :: cs)))
    else
      c :: replFieldChF fld red fuel cs

/-- One `re.sub` pass for a single field (fuel instantiated to the length of
the subject string, which always suffices). -/
def replFieldCh (fld red s : List Char) : List Char :=
  replFieldChF fld red s.length s

/-- Static method `RedactingFormatter.filter_datum(fields, redaction, message, separator)`:
the `for field in fields` loop, each iteration re-binding `message` to the
result of the `re.sub` call.  Note that, exactly as in the source, the
`separator` argument is never consulted: the value pattern is the literal
character class `[^;]*`. -/
def RedactingFormatter.filter_datum
    (fields : List String) (redaction : String) (message : String)
    (separator : String) : String :=
  ⟨fields.foldl (fun m f => replFieldCh f.data redaction.data m) message.data⟩

/-- Render a list of key/value pairs the way `main` renders a database row:
`"; ".join(f"{col}={val}" ...)`, i.e. pairs joined by `"; "`. -/
def renderPairs : List (List Char × List Char) → List Char
  | [] => []
  | [p] => p.1 ++ '=' :: p.2
  | p :: q :: ps => p.1 ++ '=' :: (p.2 ++ ';' :: ' ' :: renderPairs (q :: ps))

/-- String-level wrapper of `renderPairs`. -/
def renderMsg (ps : List (String × String)) : String :=
  ⟨renderPairs (ps.map (fun p => (p.1.data, p.2.data)))⟩

/-- Well-formed key / field name: non-empty and free of the structural
characters `'='`, `';'` and `' '` (the separator's characters). -/
def goodName (k : List Char) : Prop :=
  k ≠ [] ∧ '=' ∉ k ∧ ';' ∉ k ∧ ' ' ∉ k

/-- Well-formed value: free of `'='` and `';'`. -/
def goodVal (v : List Char) : Prop :=
  '=' ∉ v ∧ ';' ∉ v

instance goodName.instDecidable (k : List Char) : Decidable (goodName k) := by
  unfold goodName
  infer_instance

instance goodVal.instDecidable (v : List Char) : Decidable (goodVal v) := by
  unfold goodVal
  infer_instance

/-- The per-pair effect of one full `filter_datum` run: the value of a pair is
replaced by the redaction token exactly when some field name is a suffix of
the pair's key (the regex `fld ++ "="` is anchored on the right by `'='`, but
not on the left). -/
def applySub (red : List Char) (flds : List (List Char))
    (p : List Char × List Char) : List Char × List Char :=
  if ∃ f ∈ flds, f <:+ p.1 then (p.1, red) else p

/-- Function `hash_password` from `encrypt_password.py`:
`salt = bcrypt.gensalt(); return bcrypt.hashpw(password.encode(), salt)`.
The external `bcrypt.hashpw` primitive is a parameter, and the fresh salt
drawn by `bcrypt.gensalt()` is made an explicit argument. -/
def hash_password (hashpw : List Char → List Char → List Char)
    (salt : List Char) (password : String) : List Char :=
  hashpw password.data salt

/-- Function `is_valid` from `encrypt_password.py`:
`return bcrypt.checkpw(password.encode(), hashed_password)`.
The external `bcrypt.checkpw` primitive is a parameter; it is `Except`-valued
because `bcrypt.checkpw` can raise (e.g. `ValueError("Invalid salt")` on a
malformed digest).  The body contains no `try/except`: whatever `checkpw`
returns or raises is handed straight to the caller. -/
def is_valid (checkpw : List Char → List Char → Except String Bool)
    (hashed_password : List Char) (password : String) : Except String Bool :=
  checkpw password.data hashed_password

/-- A hashing primitive with `bcrypt.checkpw`'s documented failure behavior on
one malformed input: an empty byte string is not a valid bcrypt digest, so the
check raises `ValueError("Invalid salt")` instead of returning a Boolean. -/
def checkpwRaising : List Char → List Char → Except String Bool :=
  fun _ hashed => if hashed = [] then Except.error "Invalid salt" else Except.ok false

/-- A concrete salted hasher satisfying the bcrypt contract used in witnesses:
the digest embeds the salt, so distinct salts give distinct digests, and the
digest determines the hashed secret. -/
def hashpwToy (pw salt : List Char) : List Char :=
  salt ++ '$' :: pw

/-- The verifier matching `hashpwToy`. -/
def checkpwToy (pw hashed : List Char) : Except String Bool :=
  Except.ok (decide (('$' :: pw) <:+ hashed))

/-! ### Basic facts about the scanner -/

theorem replFieldChF_fuel (fld red : List Char) :
    ∀ (n m : Nat) (s : List Char), s.length ≤ n → s.length ≤ m →
      replFieldChF fld red n s = replFieldChF fld red m s := by
  intro n
  induction n with
  | zero =>
    intro m s hn _
    have hs : s = [] := List.eq_nil_of_length_eq_zero (Nat.le_zero.mp hn)
    subst hs
    cases m <;> rfl
  | succ n ih =>
    intro m s hn hm
    cases s with
    | nil => cases m <;> rfl
    | cons c cs =>
      cases m with
      | zero => simp at hm
      | succ m' =>
        simp only [replFieldChF]
        by_cases h : (fld ++ ['=']) <+: (c :: cs)
        · rw [if_pos h, if_pos h]
          have hlen : (List.dropWhile (fun x => x != ';')
              (List.drop (fld.length + 1) (c :: cs))).length ≤ cs.length := by
            have h1 := (List.dropWhile_suffix (l := List.drop (fld.length + 1) (c :: cs))
              (fun x => x != ';')).length_le
            have h2 : (List.drop (fld.length + 1) (c :: cs)).length ≤ cs.length := by
              simp [List.length_drop]
            omega
          have := ih m' (List.dropWhile (fun x => x != ';')
              (List.drop (fld.length + 1) (c :: cs)))
            (by simp at hn; omega) (by simp at hm; omega)
          rw [this]
        · rw [if_neg h, if_neg h]
          have := ih m' cs (by simp at hn; omega) (by simp at hm; omega)
          rw [this]

theorem replFieldCh_nil (fld red : List Char) : replFieldCh fld red [] = [] := rfl

theorem replFieldCh_cons_neg (fld red : List Char) (c : Char) (cs : List Char)
    (h : ¬ (fld ++ ['=']) <+: (c :: cs)) :
    replFieldCh fld red (c :: cs) = c :: replFieldCh fld red cs := by
  show replFieldChF fld red (c :: cs).length (c :: cs) = _
  simp only [List.length_cons, replFieldChF, if_neg h]
  rfl

theorem replFieldCh_match (fld red t : List Char) :
    replFieldCh fld red (fld ++ '=' :: t) =
      fld ++ '=' :: red ++ replFieldCh fld red (List.dropWhile (fun x => x != ';') t) := by
  have hlen : (List.dropWhile (fun x => x != ';') t).length ≤ t.length :=
    (List.dropWhile_suffix (fun x => x != ';')).length_le
  cases fld with
  | nil =>
    show replFieldChF [] red ('=' :: t).length ('=' :: t) = _
    simp only [List.length_cons, replFieldChF]
    rw [if_pos (show ([] : List Char) ++ ['='] <+: '=' :: t from ⟨t, by simp⟩)]
    have hdrop : List.drop (([] : List Char).length + 1) ('=' :: t) = t := by simp
    rw [hdrop]
    rw [replFieldChF_fuel [] red t.length (List.dropWhile (fun x => x != ';') t).length
      (List.dropWhile (fun x => x != ';') t) hlen (Nat.le_refl _)]
    rfl
  | cons f fl =>
    show replFieldChF (f :: fl) red (f :: (fl ++ '=' :: t)).length (f :: (fl ++ '=' :: t)) = _
    simp only [List.length_cons, replFieldChF]
    rw [if_pos (show f :: fl ++ ['='] <+: f :: (fl ++ '=' :: t) from
      ⟨t, by simp [List.append_assoc]⟩)]
    have hdrop : List.drop (fl.length + 1 + 1) (f :: (fl ++ '=' :: t)) = t := by
      have hform : fl ++ '=' :: t = (fl ++ ['=']) ++ t := by simp
      simp only [List.drop_succ_cons, hform]
      rw [List.drop_left']
      simp
    rw [hdrop]
    have hfuel : t.length ≤ (fl ++ '=' :: t).length := by simp; omega
    rw [replFieldChF_fuel (f :: fl) red (fl ++ '=' :: t).length
      (List.dropWhile (fun x => x != ';') t).length
      (List.dropWhile (fun x => x != ';') t) (Nat.le_trans hlen hfuel) (Nat.le_refl _)]
    rfl

/-! ### Where the pattern `fld ++ "="` can match -/

/-- If the pattern `fld ++ "="` matches at the start of `k ++ "=" ++ r` and
neither `fld` nor `k` contains `'='`, the match aligns the two `'='`
characters, i.e. `fld = k`. -/
theorem pat_prefix_key :
    ∀ (k fld r : List Char), '=' ∉ fld → '=' ∉ k →
      (fld ++ ['=']) <+: (k ++ '=' :: r) → fld = k := by
  intro k
  induction k with
  | nil =>
    intro fld r hf _ h
    cases fld with
    | nil => rfl
    | cons f fl =>
      simp only [List.nil_append, List.cons_append] at h
      rw [List.cons_prefix_cons] at h
      exact absurd (h.1 ▸ List.mem_cons_self f fl) hf
  | cons c k' ih =>
    intro fld r hf hk h
    cases fld with
    | nil =>
      simp only [List.nil_append, List.cons_append] at h
      rw [List.cons_prefix_cons] at h
      exact absurd (h.1.symm ▸ List.mem_cons_self c k') hk
    | cons f fl =>
      simp only [List.cons_append] at h
      rw [List.cons_prefix_cons] at h
      have h1 : fl = k' := ih fl r (fun hm => hf (List.mem_cons_of_mem f hm))
        (fun hm => hk (List.mem_cons_of_mem c hm)) h.2
      rw [h.1, h1]

/-- The pattern `fld ++ "="` cannot match at any position inside a value:
a value contains no `'='`, and the text after it is empty or starts with
`';'`, which cannot occur inside the pattern. -/
theorem pat_no_prefix_val :
    ∀ (v fld b : List Char), ';' ∉ fld → '=' ∉ v → ';' ∉ v →
      (b = [] ∨ ∃ w, b = ';' :: w) → ¬ (fld ++ ['=']) <+: (v ++ b) := by
  intro v
  induction v with
  | nil =>
    intro fld b hfs _ _ hb h
    rcases hb with hb | ⟨w, hb⟩
    · subst hb
      rw [List.nil_append, List.prefix_nil] at h
      exact absurd h (by simp)
    · subst hb
      cases fld with
      | nil => simp [List.cons_prefix_cons] at h
      | cons f fl =>
        simp only [List.nil_append, List.cons_append, List.cons_prefix_cons] at h
        exact absurd (h.1 ▸ List.mem_cons_self f fl) hfs
  | cons c v' ih =>
    intro fld b hfs hve hvs hb h
    cases fld with
    | nil =>
      simp only [List.nil_append, List.cons_append, List.cons_prefix_cons] at h
      exact absurd (h.1.symm ▸ List.mem_cons_self c v') hve
    | cons f fl =>
      simp only [List.cons_append, List.cons_prefix_cons] at h
      exact ih fl b (fun hm => hfs (List.mem_cons_of_mem f hm))
        (fun hm => hve (List.mem_cons_of_mem c hm))
        (fun hm => hvs (List.mem_cons_of_mem c hm)) hb h.2

/-- Any suffix of a rendered chunk `k ++ "=" ++ v` either lies inside the
value `v` or is `k2 ++ "=" ++ v` for a suffix `k2` of the key. -/
theorem suffix_split (a2 k v : List Char) (h : a2 <:+ k ++ '=' :: v) :
    a2 <:+ v ∨ ∃ k2, k2 <:+ k ∧ a2 = k2 ++ '=' :: v := by
  obtain ⟨t, ht⟩ := h
  rcases List.append_eq_append_iff.mp ht with ⟨a', hk, ha⟩ | ⟨c', ht', hd⟩
  · exact Or.inr ⟨a', ⟨t, hk.symm⟩, ha⟩
  · cases c' with
    | nil =>
      simp only [List.nil_append] at hd
      exact Or.inr ⟨[], List.nil_suffix, by simp [hd]⟩
    | cons x c'' =>
      simp only [List.cons_append, List.cons.injEq] at hd
      exact Or.inl ⟨c'', hd.2.symm⟩

/-- Scanning skips over a region in which no match starts. -/
theorem repl_skip (fld red : List Char) :
    ∀ (a b : List Char),
      (∀ a2, a2 <:+ a → a2 ≠ [] → ¬ (fld ++ ['=']) <+: (a2 ++ b)) →
      replFieldCh fld red (a ++ b) = a ++ replFieldCh fld red b := by
  intro a
  induction a with
  | nil => intro b _; simp
  | cons c a' ih =>
    intro b h
    have hstep : ¬ (fld ++ ['=']) <+: (c :: (a' ++ b)) := by
      have := h (c :: a') (List.suffix_refl _) (List.cons_ne_nil c a')
      simpa using this
    rw [List.cons_append, replFieldCh_cons_neg fld red c (a' ++ b) hstep]
    rw [ih b (fun a2 hs hne => h a2 (hs.trans (List.suffix_cons c a')) hne)]
    rfl

/-- Dropping a `';'`-free block up to the next `';'` boundary. -/
theorem dropWhile_semi_free (v b : List Char) (hv : ';' ∉ v)
    (hb : b = [] ∨ ∃ w, b = ';' :: w) :
    List.dropWhile (fun x => x != ';') (v ++ b) = b := by
  induction v with
  | nil =>
    rcases hb with hb | ⟨w, hb⟩ <;> subst hb
    · rfl
    · simp [List.dropWhile_cons]
  | cons c v' ih =>
    have hc : c ≠ ';' := fun hc => hv (hc ▸ List.mem_cons_self c v')
    simp only [List.cons_append, List.dropWhile_cons]
    rw [if_pos (by simpa using hc)]
    exact ih (fun hm => hv (List.mem_cons_of_mem c hm))

/-! ### The effect of one pass on a rendered message -/

/-- One chunk `k ++ "=" ++ v` followed by `b` (the rest of the message,
starting at a `';'` boundary, or nothing): the scanner rewrites the chunk to
`k ++ "=" ++ red` exactly when `fld` is a suffix of the key `k`, and then
continues with `b`. -/
theorem repl_chunk (fld red k v b : List Char)
    (hf : goodName fld) (hk : '=' ∉ k) (hv : goodVal v)
    (hb : b = [] ∨ ∃ w, b = ';' :: w) :
    replFieldCh fld red (k ++ '=' :: (v ++ b)) =
      (if fld <:+ k then k ++ '=' :: red else k ++ '=' :: v) ++ replFieldCh fld red b := by
  obtain ⟨hfne, hfe, hfs, _⟩ := hf
  obtain ⟨hve, hvs⟩ := hv
  by_cases hsuf : fld <:+ k
  · obtain ⟨k0, hk0⟩ := hsuf
    have hke : '=' ∉ k0 := fun hm => hk (hk0 ▸ List.mem_append_left fld hm)
    have hskip : ∀ a2, a2 <:+ k0 → a2 ≠ [] →
        ¬ (fld ++ ['=']) <+: (a2 ++ (fld ++ '=' :: (v ++ b))) := by
      intro a2 hs hne hmatch
      have hform : a2 ++ (fld ++ '=' :: (v ++ b)) = (a2 ++ fld) ++ '=' :: (v ++ b) := by
        simp [List.append_assoc]
      rw [hform] at hmatch
      have ha2e : '=' ∉ a2 := fun hm => hke (hs.subset hm)
      have h1 : fld = a2 ++ fld := pat_prefix_key (a2 ++ fld) fld (v ++ b) hfe
        (by simp only [List.mem_append]; rintro (hm | hm); exacts [ha2e hm, hfe hm]) hmatch
      have h2 := congrArg List.length h1
      simp only [List.length_append] at h2
      exact hne (List.eq_nil_of_length_eq_zero (by omega))
    calc replFieldCh fld red (k ++ '=' :: (v ++ b))
        = replFieldCh fld red (k0 ++ (fld ++ '=' :: (v ++ b))) := by
          rw [← hk0]; simp [List.append_assoc]
      _ = k0 ++ replFieldCh fld red (fld ++ '=' :: (v ++ b)) := repl_skip fld red k0 _ hskip
      _ = k0 ++ (fld ++ '=' :: red ++ replFieldCh fld red
            (List.dropWhile (fun x => x != ';') (v ++ b))) := by rw [replFieldCh_match]
      _ = k0 ++ (fld ++ '=' :: red ++ replFieldCh fld red b) := by
          rw [dropWhile_semi_free v b hvs hb]
      _ = (if fld <:+ k then k ++ '=' :: red else k ++ '=' :: v) ++ replFieldCh fld red b := by
          rw [if_pos ⟨k0, hk0⟩, ← hk0]; simp [List.append_assoc]
  · have hskip : ∀ a2, a2 <:+ (k ++ '=' :: v) → a2 ≠ [] →
        ¬ (fld ++ ['=']) <+: (a2 ++ b) := by
      intro a2 hs hne hmatch
      rcases suffix_split a2 k v hs with hs2 | ⟨k2, hk2, rfl⟩
      · exact pat_no_prefix_val a2 fld b hfs (fun hm => hve (hs2.subset hm))
          (fun hm => hvs (hs2.subset hm)) hb hmatch
      · have hform : (k2 ++ '=' :: v) ++ b = k2 ++ '=' :: (v ++ b) := by
          simp [List.append_assoc]
        rw [hform] at hmatch
        have h1 : fld = k2 := pat_prefix_key k2 fld (v ++ b) hfe
          (fun hm => hk (hk2.subset hm)) hmatch
        exact hsuf (h1 ▸ hk2)
    calc replFieldCh fld red (k ++ '=' :: (v ++ b))
        = replFieldCh fld red ((k ++ '=' :: v) ++ b) := by simp [List.append_assoc]
      _ = (k ++ '=' :: v) ++ replFieldCh fld red b := repl_skip fld red _ b hskip
      _ = (if fld <:+ k then k ++ '=' :: red else k ++ '=' :: v) ++ replFieldCh fld red b := by
          rw [if_neg hsuf]

/-- The scanner walks over the `"; "` separator between chunks. -/
theorem repl_step_sep (fld red R : List Char) (hf : goodName fld) :
    replFieldCh fld red (';' :: ' ' :: R) = ';' :: ' ' :: replFieldCh fld red R := by
  obtain ⟨hfne, _, hfs, hfsp⟩ := hf
  have h1 : ¬ (fld ++ ['=']) <+: (';' :: ' ' :: R) := by
    intro h
    cases fld with
    | nil => simp [List.cons_prefix_cons] at h
    | cons f fl =>
      simp only [List.cons_append, List.cons_prefix_cons] at h
      exact hfs (h.1 ▸ List.mem_cons_self f fl)
  have h2 : ¬ (fld ++ ['=']) <+: (' ' :: R) := by
    intro h
    cases fld with
    | nil => simp [List.cons_prefix_cons] at h
    | cons f fl =>
      simp only [List.cons_append, List.cons_prefix_cons] at h
      exact hfsp (h.1 ▸ List.mem_cons_self f fl)
  rw [replFieldCh_cons_neg fld red _ _ h1, replFieldCh_cons_neg fld red _ _ h2]

/-- One `re.sub` pass over a whole rendered message: exactly the pairs whose
key has `fld` as a suffix get their value replaced by `red`. -/
theorem replFieldCh_render (fld red : List Char) (hf : goodName fld) :
    ∀ ps : List (List Char × List Char),
      (∀ p ∈ ps, '=' ∉ p.1 ∧ goodVal p.2) →
      replFieldCh fld red (renderPairs ps) =
        renderPairs (ps.map (fun p => if fld <:+ p.1 then (p.1, red) else p)) := by
  intro ps
  induction ps with
  | nil => intro _; simp [renderPairs, replFieldCh_nil]
  | cons p ps ih =>
    intro hps
    have hp := hps p (List.mem_cons_self p ps)
    cases ps with
    | nil =>
      have hchunk := repl_chunk fld red p.1 p.2 [] hf hp.1 hp.2 (Or.inl rfl)
      simp only [List.append_nil] at hchunk
      by_cases hsuf : fld <:+ p.1 <;>
        simp [renderPairs, hchunk, hsuf, replFieldCh_nil]
    | cons q ps' =>
      have hrest : ∀ r ∈ q :: ps', '=' ∉ r.1 ∧ goodVal r.2 :=
        fun r hr => hps r (List.mem_cons_of_mem p hr)
      have hchunk := repl_chunk fld red p.1 p.2 (';' :: ' ' :: renderPairs (q :: ps'))
        hf hp.1 hp.2 (Or.inr ⟨' ' :: renderPairs (q :: ps'), rfl⟩)
      have hsep := repl_step_sep fld red (renderPairs (q :: ps')) hf
      have hih := ih hrest
      show replFieldCh fld red (p.1 ++ '=' :: (p.2 ++ ';' :: ' ' :: renderPairs (q :: ps'))) = _
      rw [hchunk, hsep, hih]
      by_cases hsuf : fld <:+ p.1 <;>
        simp [renderPairs, hsuf, List.append_assoc]

/-- Absorbing one field of the loop into the per-pair description. -/
theorem applySub_cons (red f : List Char) (fs : List (List Char))
    (p : List Char × List Char) :
    applySub red fs (if f <:+ p.1 then (p.1, red) else p) = applySub red (f :: fs) p := by
  by_cases hs : f <:+ p.1
  · rw [if_pos hs]
    show (if ∃ g ∈ fs, g <:+ p.1 then (p.1, red) else (p.1, red)) = _
    rw [ite_self, applySub, if_pos ⟨f, List.mem_cons_self f fs, hs⟩]
  · rw [if_neg hs]
    show applySub red fs p = applySub red (f :: fs) p
    rw [applySub, applySub]
    apply if_congr _ rfl rfl
    constructor
    · rintro ⟨g, hg, hgs⟩
      exact ⟨g, List.mem_cons_of_mem f hg, hgs⟩
    · rintro ⟨g, hg, hgs⟩
      rcases List.mem_cons.mp hg with rfl | hg2
      · exact absurd hgs hs
      · exact ⟨g, hg2, hgs⟩

/-- The full `for field in fields` loop on a rendered message: the value of a
pair is redacted exactly when some field is a suffix of its key. -/
theorem foldl_repl_render (red : List Char) (hred : goodVal red) :
    ∀ (flds : List (List Char)) (ps : List (List Char × List Char)),
      (∀ f ∈ flds, goodName f) →
      (∀ p ∈ ps, '=' ∉ p.1 ∧ goodVal p.2) →
      flds.foldl (fun m f => replFieldCh f red m) (renderPairs ps) =
        renderPairs (ps.map (applySub red flds)) := by
  intro flds
  induction flds with
  | nil =>
    intro ps _ _
    have hmap : ps.map (applySub red []) = ps := by
      rw [List.map_congr_left (fun p _ => show applySub red [] p = p from by
        rw [applySub, if_neg]
        rintro ⟨g, hg, _⟩
        exact List.not_mem_nil g hg)]
      exact List.map_id' ps
    rw [List.foldl_nil, hmap]
  | cons f fs ih =>
    intro ps hflds hps
    have hf := hflds f (List.mem_cons_self f fs)
    rw [List.foldl_cons, replFieldCh_render f red hf ps hps]
    have hps2 : ∀ r ∈ ps.map (fun p => if f <:+ p.1 then (p.1, red) else p),
        '=' ∉ r.1 ∧ goodVal r.2 := by
      intro r hr
      obtain ⟨p, hp, rfl⟩ := List.mem_map.mp hr
      by_cases hs : f <:+ p.1
      · rw [if_pos hs]
        exact ⟨(hps p hp).1, hred⟩
      · rw [if_neg hs]
        exact hps p hp
    rw [ih _ (fun g hg => hflds g (List.mem_cons_of_mem f hg)) hps2, List.map_map]
    congr 1
    exact List.map_congr_left (fun p _ => applySub_cons red f fs p)

/-- The field loop over `String`s equals the loop over their character lists. -/
theorem foldl_filter_map (red : List Char) :
    ∀ (fields : List String) (m : List Char),
      fields.foldl (fun acc f => replFieldCh f.data red acc) m =
        (fields.map String.data).foldl (fun acc f => replFieldCh f red acc) m := by
  intro fields
  induction fields with
  | nil => intro m; rfl
  | cons f fs ih =>
    intro m
    simp only [List.map_cons, List.foldl_cons]
    exact ih _

/-- Membership transfer for the redaction condition. -/
theorem exists_suffix_map_data (fields : List String) (w : List Char) :
    (∃ f ∈ fields.map String.data, f <:+ w) ↔ ∃ f ∈ fields, f.data <:+ w := by
  constructor
  · rintro ⟨f, hf, hs⟩
    obtain ⟨f0, hf0, rfl⟩ := List.mem_map.mp hf
    exact ⟨f0, hf0, hs⟩
  · rintro ⟨f0, hf0, hs⟩
    exact ⟨f0.data, List.mem_map_of_mem String.data hf0, hs⟩

/-- Behavior of `filter_datum` on a message rendered from well-formed pairs: a pair's
value is replaced by the token exactly when some sensitive field name is a
suffix of the pair's key; keys and all other pairs survive byte-identically.
This is the exact behavior of the unanchored regex `fld ++ "=[^;]*"`. -/
theorem filter_datum_renderMsg (fields : List String) (red : String)
    (ps : List (String × String)) (hred : goodVal red.data)
    (hfields : ∀ f ∈ fields, goodName f.data)
    (hps : ∀ p ∈ ps, '=' ∉ p.1.data ∧ goodVal p.2.data) (sep : String) :
    RedactingFormatter.filter_datum fields red (renderMsg ps) sep =
      renderMsg (ps.map (fun p =>
        if ∃ f ∈ fields, f.data <:+ p.1.data then (p.1, red) else p)) := by
  show String.mk (fields.foldl (fun acc f => replFieldCh f.data red.data acc)
      (renderPairs (ps.map (fun p => (p.1.data, p.2.data))))) = _
  apply congrArg String.mk
  rw [foldl_filter_map]
  rw [foldl_repl_render red.data hred (fields.map String.data)
    (ps.map (fun p => (p.1.data, p.2.data)))
    (by
      intro f hf
      obtain ⟨f0, hf0, rfl⟩ := List.mem_map.mp hf
      exact hfields f0 hf0)
    (by
      intro r hr
      obtain ⟨p, hp, rfl⟩ := List.mem_map.mp hr
      exact hps p hp)]
  rw [List.map_map, List.map_map]
  apply congrArg renderPairs
  apply List.map_congr_left
  intro p _
  simp only [Function.comp_apply]
  show applySub red.data (fields.map String.data) (p.1.data, p.2.data) = _
  rw [applySub]
  by_cases hc : ∃ f ∈ fields, f.data <:+ p.1.data
  · rw [if_pos ((exists_suffix_map_data fields p.1.data).mpr hc)]
    show _ = ((if ∃ f ∈ fields, f.data <:+ p.1.data then (p.1, red) else p).1.data,
      (if ∃ f ∈ fields, f.data <:+ p.1.data then (p.1, red) else p).2.data)
    rw [if_pos hc]
  · rw [if_neg (fun hx => hc ((exists_suffix_map_data fields p.1.data).mp hx))]
    show _ = ((if ∃ f ∈ fields, f.data <:+ p.1.data then (p.1, red) else p).1.data,
      (if ∃ f ∈ fields, f.data <:+ p.1.data then (p.1, red) else p).2.data)
    rw [if_neg hc]

/-! ### Claim C1 -/

/-- Claim C1 is false as stated: `F = {phone}` is a subset of the keys of the
well-formed message `"phone=1; telephone=2"` (separator `"; "`, token
`"***"`), yet the pair `telephone=2` is not left byte-identical — the
unanchored pattern also rewrites the tail of `telephone`. -/
theorem filter_datum_exact_on_wellformed_cx :
    RedactingFormatter.filter_datum ["phone"] "***" "phone=1; telephone=2" "; " =
        "phone=***; telephone=***" ∧
      RedactingFormatter.filter_datum ["phone"] "***" "phone=1; telephone=2" "; " ≠
        "phone=***; telephone=2" := by
  constructor
  · decide
  · decide

/-- Claim C1 (amended): for a message rendered from well-formed `key=value`
pairs joined by `"; "`, and a subset `F` of its keys such that no key of the
message has a field of `F` as a proper suffix, `filter_datum F "***" M sep`
replaces exactly the values of the keys in `F` (each becomes `key=***`) and
leaves every other key/value pair byte-identical. -/
theorem filter_datum_exact_on_wellformed (fields : List String)
    (ps : List (String × String))
    (hps : ∀ p ∈ ps, goodName p.1.data ∧ goodVal p.2.data)
    (hsub : ∀ f ∈ fields, f ∈ ps.map Prod.fst)
    (hns : ∀ f ∈ fields, ∀ p ∈ ps, f.data <:+ p.1.data → p.1 = f) (sep : String) :
    RedactingFormatter.filter_datum fields "***" (renderMsg ps) sep =
      renderMsg (ps.map (fun p => if p.1 ∈ fields then (p.1, "***") else p)) := by
  have hfields : ∀ f ∈ fields, goodName f.data := by
    intro f hf
    obtain ⟨p, hp, hpf⟩ := List.mem_map.mp (hsub f hf)
    exact hpf ▸ (hps p hp).1
  rw [filter_datum_renderMsg fields "***" ps (by decide) hfields
    (fun p hp => ⟨(hps p hp).1.2.1, (hps p hp).2⟩) sep]
  apply congrArg renderMsg
  apply List.map_congr_left
  intro p hp
  apply if_congr _ rfl rfl
  constructor
  · rintro ⟨f, hf, hs⟩
    have hpf := hns f hf p hp hs
    rw [hpf]
    exact hf
  · intro hmem
    exact ⟨p.1, hmem, List.suffix_refl _⟩

/-- Witness for C1 at the spec's concrete scenario. -/
theorem filter_datum_exact_on_wellformed_witness :
    RedactingFormatter.filter_datum ["name", "email"] "***"
        "name=John Smith; email=john@example.com; phone=555-1234" "; " =
      "name=***; email=***; phone=555-1234" := by
  have h := filter_datum_exact_on_wellformed ["name", "email"]
    [("name", "John Smith"), ("email", "john@example.com"), ("phone", "555-1234")]
    (by decide) (by decide) (by decide) "; "
  rw [show renderMsg [("name", "John Smith"), ("email", "john@example.com"),
    ("phone", "555-1234")] = "name=John Smith; email=john@example.com; phone=555-1234"
    from by decide] at h
  exact h.trans (by decide)

/-! ### Claim C2 -/

/-- Claim C2 is false as stated: with sensitive field `email` and the key
`user_email` (which strictly contains `email` as a suffix), the claim says
the pair is untouched, but the code redacts its value: the regex
`email=[^;]*` is not anchored on the left. -/
theorem filter_datum_suffix_anchored_cx :
    RedactingFormatter.filter_datum ["email"] "***" "user_email=foo" "; " =
        "user_email=***" ∧
      RedactingFormatter.filter_datum ["email"] "***" "user_email=foo" "; " ≠
        "user_email=foo" := by
  constructor
  · decide
  · decide

/-- Claim C2 (amended): matching is anchored on the right by `'='` only.  On
a well-formed message a pair is redacted exactly when some sensitive field is
a suffix of its key: `emails=x` (field a proper prefix of the key) is left
untouched, while `user_email=y` (field a proper suffix of the key) is
redacted. -/
theorem filter_datum_suffix_anchored (fields : List String)
    (ps : List (String × String))
    (hps : ∀ p ∈ ps, goodName p.1.data ∧ goodVal p.2.data)
    (hfields : ∀ f ∈ fields, goodName f.data) (sep : String) :
    RedactingFormatter.filter_datum fields "***" (renderMsg ps) sep =
      renderMsg (ps.map (fun p =>
        if ∃ f ∈ fields, f.data <:+ p.1.data then (p.1, "***") else p)) :=
  filter_datum_renderMsg fields "***" ps (by decide) hfields
    (fun p hp => ⟨(hps p hp).1.2.1, (hps p hp).2⟩) sep

/-- Witness for C2: `emails` is untouched, `user_email` is redacted. -/
theorem filter_datum_suffix_anchored_witness :
    RedactingFormatter.filter_datum ["email"] "***"
        (renderMsg [("emails", "x"), ("user_email", "y")]) "; " =
      "emails=x; user_email=***" := by
  have h := filter_datum_suffix_anchored ["email"]
    [("emails", "x"), ("user_email", "y")] (by decide) (by decide) "; "
  exact h.trans (by decide)

/-! ### Claim C3 -/

/-- Claim C3 is false as stated: with separator `","` the claim predicts the
value of `name` stops at the next `","`, i.e. output `"name=***,b"`; the
code's value pattern is the hard-coded `[^;]*`, which consumes the whole
tail. -/
theorem filter_datum_separator_cx :
    RedactingFormatter.filter_datum ["name"] "***" "name=a,b" "," = "name=***" ∧
      RedactingFormatter.filter_datum ["name"] "***" "name=a,b" "," ≠ "name=***,b" := by
  constructor
  · decide
  · decide

/-- Claim C3 (amended): the `separator` argument has no effect on
`filter_datum`; the value boundary is always the next `';'` character (or end
of string), as hard-coded by the regex `[^;]*`. -/
theorem filter_datum_separator_ignored (fields : List String)
    (redaction message sep1 sep2 : String) :
    RedactingFormatter.filter_datum fields redaction message sep1 =
      RedactingFormatter.filter_datum fields redaction message sep2 := rfl

/-! ### Claim C4 -/

/-- Claim C4 is false as stated: constructing a formatter whose field set
contains an empty field name, or a duplicate field name, does not raise — the
constructor performs no validation and returns a usable formatter storing
exactly the given list. -/
theorem init_accepts_malformed_cx :
    RedactingFormatter.init [""] =
        Except.ok { fmt := RedactingFormatter.FORMAT, fields := [""] } ∧
      RedactingFormatter.init ["a", "a"] =
        Except.ok { fmt := RedactingFormatter.FORMAT, fields := ["a", "a"] } :=
  ⟨rfl, rfl⟩

/-- Claim C4 (amended): construction never fails.  `__init__` performs no
validation of the sensitive-field set: for every field list — including lists
containing an empty or a duplicate name — construction succeeds and returns a
formatter holding exactly the given fields (and the class `FORMAT` string). -/
theorem init_never_fails (fields : List String) :
    RedactingFormatter.init fields =
      Except.ok { fmt := RedactingFormatter.FORMAT, fields := fields } := rfl

/-! ### Claim C5 -/

/-- Claim C5: the body of `is_valid` is exactly
`return bcrypt.checkpw(password.encode(), hashed_password)`, with no
`try/except`.  Consequently, whenever the bcrypt primitive raises (as
`bcrypt.checkpw` does on a malformed digest or a wrong-typed argument,
e.g. `ValueError("Invalid salt")`), `is_valid` escalates that very exception
to the caller instead of returning `False`. -/
theorem is_valid_escalates
    (checkpw : List Char → List Char → Except String Bool)
    (hashed_password : List Char) (password : String) (e : String)
    (h : checkpw password.data hashed_password = Except.error e) :
    is_valid checkpw hashed_password password = Except.error e := h

/-- Witness for C5: with the empty (malformed) digest, the bcrypt failure
`"Invalid salt"` propagates out of `is_valid`. -/
theorem is_valid_escalates_witness :
    is_valid checkpwRaising [] "p" = Except.error "Invalid salt" :=
  is_valid_escalates checkpwRaising [] "p" "Invalid salt" rfl

/-! ### Claim C6 -/

/-- Claim C6 is false as stated: with redaction token `"x;y"` (containing the
`';'` boundary character) redacting twice is not redacting once — the second
pass cuts the previously inserted token at its `';'` and appends the token
again. -/
theorem filter_datum_idempotent_cx :
    RedactingFormatter.filter_datum ["a"] "x;y" "a=1" "; " = "a=x;y" ∧
      RedactingFormatter.filter_datum ["a"] "x;y"
          (RedactingFormatter.filter_datum ["a"] "x;y" "a=1" "; ") "; " = "a=x;y;y" ∧
      RedactingFormatter.filter_datum ["a"] "x;y"
          (RedactingFormatter.filter_datum ["a"] "x;y" "a=1" "; ") "; " ≠
        RedactingFormatter.filter_datum ["a"] "x;y" "a=1" "; " := by
  refine ⟨by decide, by decide, by decide⟩

/-- Claim C6 (amended): on a message of well-formed `key=value` pairs and for
a redaction token free of `';'` and `'='` (such as the configured `"***"`),
redacting twice equals redacting once, for every field set and separator. -/
theorem filter_datum_idempotent_wf (fields : List String) (red : String)
    (ps : List (String × String)) (hred : goodVal red.data)
    (hfields : ∀ f ∈ fields, goodName f.data)
    (hps : ∀ p ∈ ps, '=' ∉ p.1.data ∧ goodVal p.2.data) (sep : String) :
    RedactingFormatter.filter_datum fields red
        (RedactingFormatter.filter_datum fields red (renderMsg ps) sep) sep =
      RedactingFormatter.filter_datum fields red (renderMsg ps) sep := by
  rw [filter_datum_renderMsg fields red ps hred hfields hps sep]
  have hps2 : ∀ r ∈ ps.map (fun p =>
      if ∃ f ∈ fields, f.data <:+ p.1.data then (p.1, red) else p),
      '=' ∉ r.1.data ∧ goodVal r.2.data := by
    intro r hr
    obtain ⟨p, hp, rfl⟩ := List.mem_map.mp hr
    by_cases hc : ∃ f ∈ fields, f.data <:+ p.1.data
    · rw [if_pos hc]
      exact ⟨(hps p hp).1, hred⟩
    · rw [if_neg hc]
      exact hps p hp
  rw [filter_datum_renderMsg fields red _ hred hfields hps2 sep]
  apply congrArg renderMsg
  rw [List.map_map]
  apply List.map_congr_left
  intro p _
  simp only [Function.comp_apply]
  by_cases hc : ∃ f ∈ fields, f.data <:+ p.1.data
  · rw [if_pos hc, if_pos hc]
  · rw [if_neg hc, if_neg hc]

/-- Witness for C6 on a concrete well-formed message with the `"***"` token. -/
theorem filter_datum_idempotent_wf_witness :
    RedactingFormatter.filter_datum ["name"] "***"
        (RedactingFormatter.filter_datum ["name"] "***"
          (renderMsg [("name", "Bob"), ("city", "Rome")]) "; ") "; " =
      RedactingFormatter.filter_datum ["name"] "***"
        (renderMsg [("name", "Bob"), ("city", "Rome")]) "; " :=
  filter_datum_idempotent_wf ["name"] "***" [("name", "Bob"), ("city", "Rome")]
    (by decide) (by decide) (by decide) "; "

/-! ### Claim C7 -/

/-- Claim C7 is false as stated: with token `"a=z"` (containing `'='`) the
two orderings of the field set `{a, b}` give different outputs on the
well-formed single-pair message `"b=1"`: redacting `b` first plants the text
`a=z`, which only the ordering that still has `a` to process then rewrites. -/
theorem filter_datum_field_order_cx :
    RedactingFormatter.filter_datum ["a", "b"] "a=z" "b=1" "; " = "b=a=z" ∧
      RedactingFormatter.filter_datum ["b", "a"] "a=z" "b=1" "; " = "b=a=a=z" ∧
      RedactingFormatter.filter_datum ["a", "b"] "a=z" "b=1" "; " ≠
        RedactingFormatter.filter_datum ["b", "a"] "a=z" "b=1" "; " := by
  refine ⟨by decide, by decide, by decide⟩

/-- Claim C7 (amended): on a message of well-formed `key=value` pairs, with a
redaction token free of `';'` and `'='` (such as `"***"`), any two field
lists containing the same field names produce the identical output — the
result depends only on the set of fields, not on their order. -/
theorem filter_datum_field_order_irrelevant (fields1 fields2 : List String)
    (red : String) (ps : List (String × String)) (hred : goodVal red.data)
    (h12 : ∀ f ∈ fields1, f ∈ fields2) (h21 : ∀ f ∈ fields2, f ∈ fields1)
    (hfields : ∀ f ∈ fields1, goodName f.data)
    (hps : ∀ p ∈ ps, '=' ∉ p.1.data ∧ goodVal p.2.data) (sep : String) :
    RedactingFormatter.filter_datum fields1 red (renderMsg ps) sep =
      RedactingFormatter.filter_datum fields2 red (renderMsg ps) sep := by
  rw [filter_datum_renderMsg fields1 red ps hred hfields hps sep,
    filter_datum_renderMsg fields2 red ps hred
      (fun f hf => hfields f (h21 f hf)) hps sep]
  apply congrArg renderMsg
  apply List.map_congr_left
  intro p _
  apply if_congr _ rfl rfl
  constructor
  · rintro ⟨f, hf, hs⟩
    exact ⟨f, h12 f hf, hs⟩
  · rintro ⟨f, hf, hs⟩
    exact ⟨f, h21 f hf, hs⟩

/-- Witness for C7: the two orderings of `{name, email}` agree on a concrete
well-formed message. -/
theorem filter_datum_field_order_irrelevant_witness :
    RedactingFormatter.filter_datum ["name", "email"] "***"
        (renderMsg [("name", "Bob"), ("email", "b@c"), ("city", "Rome")]) "; " =
      RedactingFormatter.filter_datum ["email", "name"] "***"
        (renderMsg [("name", "Bob"), ("email", "b@c"), ("city", "Rome")]) "; " :=
  filter_datum_field_order_irrelevant ["name", "email"] ["email", "name"] "***"
    [("name", "Bob"), ("email", "b@c"), ("city", "Rome")]
    (by decide) (by decide) (by decide) (by decide) (by decide) "; "

/-! ### Claim C8 -/

/-- Claim C8: `hash_password` hashes the encoded password with a fresh salt
and `is_valid` hands password and digest to the verifier in the right order,
so for any hashing primitive satisfying bcrypt's contract — verification
succeeds on a digest hashed from the same password, and the digest embeds the
salt injectively — two independent `hash_password` calls (two fresh salts)
both verify via `is_valid`, yet produce unequal digests whenever the drawn
salts differ. -/
theorem hash_password_is_valid_roundtrip
    (hashpw : List Char → List Char → List Char)
    (checkpw : List Char → List Char → Except String Bool)
    (hround : ∀ p s, checkpw p (hashpw p s) = Except.ok true)
    (hinj : ∀ p s1 s2, hashpw p s1 = hashpw p s2 → s1 = s2)
    (password : String) (s1 s2 : List Char) (hne : s1 ≠ s2) :
    is_valid checkpw (hash_password hashpw s1 password) password = Except.ok true ∧
      is_valid checkpw (hash_password hashpw s2 password) password = Except.ok true ∧
      hash_password hashpw s1 password ≠ hash_password hashpw s2 password :=
  ⟨hround password.data s1, hround password.data s2,
    fun h => hne (hinj password.data s1 s2 h)⟩

/-- Witness for C8 with the concrete salted hasher `hashpwToy`/`checkpwToy`
and the spec's password `"p@ss"`. -/
theorem hash_password_is_valid_roundtrip_witness :
    is_valid checkpwToy (hash_password hashpwToy ['a'] "p@ss") "p@ss" = Except.ok true ∧
      is_valid checkpwToy (hash_password hashpwToy ['b'] "p@ss") "p@ss" = Except.ok true ∧
      hash_password hashpwToy ['a'] "p@ss" ≠ hash_password hashpwToy ['b'] "p@ss" :=
  hash_password_is_valid_roundtrip hashpwToy checkpwToy
    (fun p s => congrArg Except.ok (decide_eq_true (List.suffix_append s ('$' :: p))))
    (fun p s1 s2 h => (List.append_left_inj ('$' :: p)).mp h)
    "p@ss" ['a'] ['b'] (by decide)

/-! ### Claim C9 -/

/-- If a field's pattern never occurs in the string, the pass is the
identity. -/
theorem replFieldCh_no_occurrence (fld red : List Char) :
    ∀ s : List Char, ¬ (fld ++ ['=']) <:+: s → replFieldCh fld red s = s := by
  intro s
  induction s with
  | nil => intro _; exact replFieldCh_nil fld red
  | cons c cs ih =>
    intro h
    have hhead : ¬ (fld ++ ['=']) <+: (c :: cs) := fun hp => h hp.isInfix
    rw [replFieldCh_cons_neg fld red c cs hhead, ih (fun hi => h (List.infix_cons hi))]

/-- Claim C9: when no sensitive field can be located in the message (for each
field, `field=` occurs nowhere in it — in particular for any message that is
not in `key=value` form), `filter_datum` neither fails nor substitutes: it
returns the message unchanged. -/
theorem filter_datum_no_match_unchanged (fields : List String)
    (red message sep : String)
    (h : ∀ f ∈ fields, ¬ (f.data ++ ['=']) <:+: message.data) :
    RedactingFormatter.filter_datum fields red message sep = message := by
  show String.mk (fields.foldl (fun acc f => replFieldCh f.data red.data acc)
    message.data) = message
  have hgen : ∀ (fs : List String) (m : List Char),
      (∀ f ∈ fs, ¬ (f.data ++ ['=']) <:+: m) →
      fs.foldl (fun acc f => replFieldCh f.data red.data acc) m = m := by
    intro fs
    induction fs with
    | nil => intro m _; rfl
    | cons f fs ih =>
      intro m hm
      rw [List.foldl_cons, replFieldCh_no_occurrence f.data red.data m
          (hm f (List.mem_cons_self f fs)),
        ih m (fun g hg => hm g (List.mem_cons_of_mem f hg))]
  rw [hgen fields message.data h]

/-- Witness for C9: the unparseable message `"hello world"` with the full
`PII_FIELDS` list is returned unchanged. -/
theorem filter_datum_no_match_unchanged_witness :
    RedactingFormatter.filter_datum PII_FIELDS "***" "hello world" "; " =
      "hello world" :=
  filter_datum_no_match_unchanged PII_FIELDS "***" "hello world" "; " (by decide)

/-! ### Claim C10 -/

/-- One pass preserves the number of `';'` characters when the token has no
`';'`: the replaced span (a match of `fld ++ "=[^;]*"`) contains none, and
neither does its replacement. -/
theorem replFieldCh_count_semi (fld red : List Char) (hred : ';' ∉ red) :
    ∀ (n : Nat) (s : List Char), s.length ≤ n →
      List.count ';' (replFieldCh fld red s) = List.count ';' s := by
  intro n
  induction n with
  | zero =>
    intro s hs
    have hnil : s = [] := List.eq_nil_of_length_eq_zero (Nat.le_zero.mp hs)
    subst hnil
    rw [replFieldCh_nil]
  | succ n ih =>
    intro s hs
    by_cases hm : (fld ++ ['=']) <+: s
    · obtain ⟨t, ht⟩ := hm
      have hform : s = fld ++ '=' :: t := by rw [← ht]; simp
      subst hform
      have hlt : t.length ≤ n := by
        simp only [List.length_append, List.length_cons] at hs
        omega
      have hlen2 : (List.dropWhile (fun x => x != ';') t).length ≤ n :=
        Nat.le_trans (List.dropWhile_suffix (fun x => x != ';')).length_le hlt
      have h1 : List.count ';' (List.takeWhile (fun x => x != ';') t) = 0 :=
        List.count_eq_zero.mpr (fun hmem => by
          have := List.mem_takeWhile_imp hmem
          simp at this)
      have h2 : List.count ';' red = 0 := List.count_eq_zero.mpr hred
      have h3 : List.count ';' t = List.count ';' (List.takeWhile (fun x => x != ';') t)
          + List.count ';' (List.dropWhile (fun x => x != ';') t) := by
        conv_lhs => rw [← List.takeWhile_append_dropWhile (fun x => x != ';') t]
        rw [List.count_append]
      rw [replFieldCh_match, List.count_append, List.count_append,
        List.count_cons_of_ne (by decide), ih _ hlen2, List.count_append,
        List.count_cons_of_ne (by decide)]
      omega
    · cases s with
      | nil => rw [replFieldCh_nil]
      | cons c cs =>
        rw [replFieldCh_cons_neg fld red c cs hm]
        simp only [List.count_cons]
        rw [ih cs (by simp only [List.length_cons] at hs; omega)]

/-- Claim C10: whenever the redaction token contains no `';'`, `filter_datum`
preserves the exact number of `';'` occurrences of the message, for every
field list, message and separator: redaction never creates or destroys pair
boundaries. -/
theorem filter_datum_preserves_semicolons (fields : List String)
    (red message sep : String) (hred : ';' ∉ red.data) :
    List.count ';' (RedactingFormatter.filter_datum fields red message sep).data =
      List.count ';' message.data := by
  show List.count ';' (fields.foldl (fun acc f => replFieldCh f.data red.data acc)
    message.data) = _
  have hgen : ∀ (fs : List String) (m : List Char),
      List.count ';' (fs.foldl (fun acc f => replFieldCh f.data red.data acc) m) =
        List.count ';' m := by
    intro fs
    induction fs with
    | nil => intro m; rfl
    | cons f fs ih =>
      intro m
      rw [List.foldl_cons, ih (replFieldCh f.data red.data m),
        replFieldCh_count_semi f.data red.data hred m.length m (Nat.le_refl _)]
  exact hgen fields message.data

/-- Witness for C10 on a two-pair message. -/
theorem filter_datum_preserves_semicolons_witness :
    List.count ';' (RedactingFormatter.filter_datum ["name"] "***"
        "name=x; b=y" "; ").data =
      List.count ';' ("name=x; b=y" : String).data :=
  filter_datum_preserves_semicolons ["name"] "***" "name=x; b=y" "; " (by decide)
